import Mathlib

/-!
Anchor: resolution engine, input parsing, store and import extraction

A shallow embedding of `cmds.go` and `internal/database/database.go`.

* Go strings are lists of characters (`Str`).  Every character the commands
  inspect (`$`, `=`, the single quote, decimal digits) is ASCII, and an ASCII
  byte never occurs inside a multi-byte UTF-8 sequence, so scanning characters
  and scanning bytes agree on well-formed text.
* The table `anchors (id INTEGER PRIMARY KEY, key TEXT UNIQUE, value TEXT)` is
  the list of its rows in rowid order, which is the order of a full table scan.
* The database driver and the SQL engine are not among the sources.  Three of
  their behaviours reach the store: a statement takes at most
  `maxVariableNumber` parameters; a text bound from a CSV record is handed over
  as a C string and ends at its first NUL (`cString`); and `Scan` may return a
  stored row rewritten, as it does for date-like text, which comes back in
  RFC 3339 form.  The last is a parameter of the model, `Env.scan`.  Text from
  the command line holds no NUL.  Exhaustion of rowids, of memory or of the
  disk is not modelled.
* A command is a function from the environment, the table and its arguments to
  a `Run`: the outcome, the table afterwards and the store calls it made.
-/

set_option autoImplicit false

namespace AnchorCli

/-- A Go string. -/
abbrev Str := List Char

/-! ## Functions of the Go standard library used by the commands -/

/-- Go `strings.HasPrefix(s, p)`. -/
def hasPrefix : Str → Str → Bool
  | _, [] => true
  | [], _ :: _ => false
  | c :: cs, p :: ps => c == p && hasPrefix cs ps

/-- Go `strings.Contains(s, sep)` for a one-character separator. -/
def contains (s : Str) (sep : Char) : Bool := s.elem sep

/-- Go `strings.Count(s, sep)` for a one-character separator. -/
def count (s : Str) (sep : Char) : Nat := s.count sep

/-- Go `strings.Cut(s, sep)`: the text before and after the first `sep`. -/
def cut (sep : Char) : Str → Option (Str × Str)
  | [] => none
  | c :: cs =>
    if c = sep then some ([], cs)
    else (cut sep cs).map (fun p => (c :: p.1, p.2))

/-- Go `strings.SplitN(s, sep, 2)`: at most two pieces, split at the first `sep`. -/
def splitN2 (s : Str) (sep : Char) : List Str :=
  match cut sep s with
  | none => [s]
  | some (before, after) => [before, after]

/-- Go `strings.Trim(s, cutset)` for a one-character cutset. -/
def trim (s : Str) (c : Char) : Str :=
  ((s.dropWhile (fun x => x == c)).reverse.dropWhile (fun x => x == c)).reverse

/-- Go `unicode.IsSpace`. -/
def isSpace (c : Char) : Bool :=
  let n := c.toNat
  (9 ≤ n && n ≤ 13) || n == 32 || n == 133 || n == 160 || n == 5760 ||
    (8192 ≤ n && n ≤ 8202) || n == 8232 || n == 8233 || n == 8239 || n == 8287 || n == 12288

/-- Go `strings.TrimSpace(s)`. -/
def trimSpace (s : Str) : Str :=
  ((s.dropWhile isSpace).reverse.dropWhile isSpace).reverse

/-- The scan of `strings.ReplaceAll` for a non-empty `old`: `skip` is the number
of characters of a matched occurrence still to be passed over.  With `skip = 0`
the scan tests for `old` at the current position; on a match it writes `new`
and passes over the occurrence, otherwise it copies one character. -/
def replaceFrom (old new : Str) : Nat → Str → Str
  | _, [] => []
  | skip + 1, _ :: cs => replaceFrom old new skip cs
  | 0, c :: cs =>
    if hasPrefix (c :: cs) old then new ++ replaceFrom old new (old.length - 1) cs
    else c :: replaceFrom old new 0 cs

/-- Go `strings.ReplaceAll(s, old, new)`: the non-overlapping occurrences of `old`,
leftmost first, are replaced by `new`; an empty `old` matches before every
character and at the end. -/
def replaceAll (s old new : Str) : Str :=
  match old with
  | [] => new ++ s.flatMap (fun c => c :: new)
  | _ :: _ => replaceFrom old new 0 s

/-- Go `fmt.Sprintf("$%d", n)`. -/
def sprintfPlaceholder (n : Nat) : Str := '$' :: Nat.toDigits 10 n

/-- The single-quote character, the cutset of `strings.Trim(_, "'")`. -/
def quote : Char := Char.ofNat 39

/-! ## Errors and outcomes -/

/-- Errors of the SQL engine that the store calls can return. -/
inductive DbError where
  /-- Message `UNIQUE constraint failed: anchors.key`. -/
  | uniqueConstraint
  /-- Message `sql: no rows in result set`. -/
  | noRows
  /-- Message `too many SQL variables`. -/
  | tooManyVariables
  deriving DecidableEq, Repr

/-- The errors a command returns through `log.Error`. -/
inductive CmdError where
  /-- Message `invalid format. Use: key='value'`. -/
  | invalidFormat
  /-- Message `database.New, err=...`. -/
  | databaseNew (err : Str)
  /-- Message `db.Create, err=...`. -/
  | dbCreate (err : DbError)
  /-- Message `db.Read, err=...`. -/
  | dbRead (err : DbError)
  /-- Message `db.Update, err=...`. -/
  | dbUpdate (err : DbError)
  /-- Message `db.Delete, err=...`. -/
  | dbDelete (err : DbError)
  /-- Message `db.Import, err=...`. -/
  | dbImport (err : DbError)
  /-- Message `missing arguments for key="value"`. -/
  | missingArguments (key value : Str)
  /-- Message `pbcopy in cmd.Run, err=...`. -/
  | pbcopy (err : Str)
  /-- Message `open in cmd.Run, err=...`. -/
  | openCmd (err : Str)
  /-- Message `csvReader.ReadAll, err=...` and the read errors before it. -/
  | csvRead (err : Str)
  /-- Message `no valid anchors where found`. -/
  | noValidAnchors
  deriving DecidableEq, Repr

/-- What a command that returns `nil` has reported. -/
inductive Success where
  /-- The help text of `cmd.Help()`. -/
  | help
  /-- Message `Anchor successfully created`. -/
  | created (key value : Str)
  /-- The resolved value was copied to the clipboard and opened. -/
  | opened (value : Str)
  /-- Message `Anchor successfully updated`. -/
  | updated (key value : Str)
  /-- Message `Anchor successfully deleted`. -/
  | deleted (key : Str)
  /-- Message `CSV file successfully imported`. -/
  | imported
  deriving DecidableEq, Repr

/-- How a command ends: it returns `nil`, returns an error, or the Go runtime
panics. -/
inductive Outcome where
  | ok (s : Success)
  | error (e : CmdError)
  | panic
  deriving DecidableEq, Repr

/-! ## The store (`internal/database/database.go`) -/

/-- Modelled from the spec: `store.Anchor`, declared in `internal/store`, which is
not among the sources; the persisted record shape is
`{id: integer, key: string unique, value: string}`. -/
structure Anchor where
  Id : Nat
  Key : Str
  Value : Str
  deriving DecidableEq, Repr

/-- The rows of the table `anchors`, in rowid order. -/
abbrev Table := List Anchor

/-- The rowid an `INTEGER PRIMARY KEY` column gets on insert: one more than the
largest rowid in the table. -/
def nextId (t : Table) : Nat := (t.map (fun a => a.Id)).foldr max 0 + 1

/-- Whether some row has the key (the `UNIQUE` index lookup). -/
def hasKey (t : Table) (key : Str) : Bool := t.any (fun a => a.Key == key)

/-- Method `Store.Create`: `INSERT INTO anchors (key, value) VALUES (?, ?)`, which
fails on a key already present (`key TEXT UNIQUE`).  Its callers pass text of
the command line, as do those of `Store.Read`, `Store.Update` and
`Store.Delete`. -/
def Store.Create (t : Table) (key value : Str) : Option DbError × Table :=
  if hasKey t key then (some DbError.uniqueConstraint, t)
  else (none, t ++ [⟨nextId t, key, value⟩])

/-- Method `Store.Read`: `SELECT * FROM anchors WHERE key = ?`, scanned with
`QueryRow`, which fails when there is no row; `scan` is what `Scan` returns for
a stored row. -/
def Store.Read (scan : Anchor → Anchor) (t : Table) (key : Str) : Except DbError Anchor :=
  match t.find? (fun a => a.Key == key) with
  | some a => Except.ok (scan a)
  | none => Except.error DbError.noRows

/-- Method `Store.ReadAll`: `SELECT * FROM anchors`, every row through `Scan`. -/
def Store.ReadAll (scan : Anchor → Anchor) (t : Table) : Except DbError (List Anchor) :=
  Except.ok (t.map scan)

/-- Method `Store.Update`: `UPDATE anchors SET key = ?, value = ? WHERE key = ?`;
the error of `Exec` is returned and the number of rows affected is not read. -/
def Store.Update (t : Table) (anchor : Anchor) : Option DbError × Table :=
  (none, t.map (fun a =>
    if a.Key == anchor.Key then ⟨a.Id, anchor.Key, anchor.Value⟩ else a))

/-- Method `Store.Delete`: `DELETE FROM anchors WHERE key = ?`; the error of `Exec`
is returned and the number of rows affected is not read. -/
def Store.Delete (t : Table) (key : Str) : Option DbError × Table :=
  (none, t.filter (fun a => !(a.Key == key)))

/-- Method `Store.Reset`: `DELETE FROM anchors`. -/
def Store.Reset (_t : Table) : Option DbError × Table := (none, [])

/-- The NUL character. -/
def nul : Char := Char.ofNat 0

/-- The text a statement parameter carries when the driver hands it over as a C
string: it ends at the first NUL. -/
def cString : Str → Str
  | [] => []
  | c :: cs => if c = nul then [] else c :: cString cs

/-- The greatest number of parameters of one statement
(`SQLITE_MAX_VARIABLE_NUMBER`). -/
def maxVariableNumber : Nat := 32766

/-- One row of `INSERT OR IGNORE`, with its two parameters as bound: a row whose
key is present is skipped. -/
def insertOrIgnore (t : Table) (a : Anchor) : Table :=
  if hasKey t (cString a.Key) then t
  else t ++ [⟨nextId t, cString a.Key, cString a.Value⟩]

/-- Method `Store.Import`: nothing for an empty list, otherwise one
`INSERT OR IGNORE INTO anchors (key, value) VALUES (?, ?), ...` with two
parameters for each record.  With more parameters than a statement may have,
`Exec` fails and no row is inserted; otherwise the rows are inserted in the
order they are written. -/
def Store.Import (t : Table) (anchors : List Anchor) : Option DbError × Table :=
  if anchors.length = 0 then (none, t)
  else if maxVariableNumber < 2 * anchors.length then (some DbError.tooManyVariables, t)
  else (none, anchors.foldl insertOrIgnore t)

/-! ## The commands (`cmds.go`) -/

/-- A call of a store method, as recorded in the trace of a run. -/
inductive StoreOp where
  | Create (key value : Str)
  | Read (key : Str)
  | ReadAll
  | Update (anchor : Anchor)
  | Delete (key : Str)
  | Reset
  | Import (anchors : List Anchor)
  deriving DecidableEq, Repr

/-- What the commands take from outside the program: the error of
`database.New()`, of running `pbcopy` on a text and of running `open` on it,
and the row that the driver's `Scan` returns for a stored row. -/
structure Env where
  dbNewErr : Option Str
  pbcopyErr : Str → Option Str
  openErr : Str → Option Str
  scan : Anchor → Anchor

/-- The result of running a command. -/
structure Run where
  outcome : Outcome
  table : Table
  ops : List StoreOp
  deriving DecidableEq, Repr

/-- The split and trims shared by the create path (`cmds.go` 35-41) and the
update command (162-168): `none` is the `len(inputSlice) != 2` branch. -/
def parseAssignment (input : Str) : Option (Str × Str) :=
  match splitN2 input '=' with
  | [key, raw] => some (key, trimSpace (trim raw quote))
  | _ => none

/-- What the root command makes of its arguments (`cmds.go` 32-41, 63, 76). -/
inductive Parsed where
  /-- No argument: help. -/
  | help
  /-- An assignment that did not split in two. -/
  | invalidFormat
  /-- An assignment `key=value`: create. -/
  | assign (key value : Str)
  /-- A lookup key and its positional arguments `args[1:]`. -/
  | lookup (key : Str) (args : List Str)
  deriving DecidableEq, Repr

/-- The dispatch on `args` at the head of `rootCmd.RunE`. -/
def parseArgs : List Str → Parsed
  | [] => Parsed.help
  | input :: rest =>
    if contains input '=' then
      match parseAssignment input with
      | none => Parsed.invalidFormat
      | some (key, value) => Parsed.assign key value
    else Parsed.lookup input rest

/-- The substitution loop of `rootCmd.RunE` (76-79): `i` is the loop index of
the first remaining argument. -/
def substitute : Nat → List Str → Str → Str
  | _, [], value => value
  | i, arg :: rest, value =>
    substitute (i + 1) rest (replaceAll value (sprintfPlaceholder (i + 1)) arg)

/-- Resolution (`cmds.go` 69-79): the arity check on the number of `$`, then the
substitution loop over `args[1:]`. -/
def resolve (key value : Str) (args : List Str) : Except CmdError Str :=
  let placeholderCount := count value '$'
  if placeholderCount ≠ args.length then Except.error (CmdError.missingArguments key value)
  else Except.ok (substitute 0 args value)

/-- Command `rootCmd.RunE`. -/
def rootCmd (env : Env) (t : Table) (args : List Str) : Run :=
  match parseArgs args with
  | Parsed.help => ⟨Outcome.ok Success.help, t, []⟩
  | Parsed.invalidFormat => ⟨Outcome.error CmdError.invalidFormat, t, []⟩
  | Parsed.assign key value =>
    match env.dbNewErr with
    | some e => ⟨Outcome.error (CmdError.databaseNew e), t, []⟩
    | none =>
      match Store.Create t key value with
      | (some e, t1) => ⟨Outcome.error (CmdError.dbCreate e), t1, [StoreOp.Create key value]⟩
      | (none, t1) => ⟨Outcome.ok (Success.created key value), t1, [StoreOp.Create key value]⟩
  | Parsed.lookup key rest =>
    match env.dbNewErr with
    | some e => ⟨Outcome.error (CmdError.databaseNew e), t, []⟩
    | none =>
      match Store.Read env.scan t key with
      | Except.error e => ⟨Outcome.error (CmdError.dbRead e), t, [StoreOp.Read key]⟩
      | Except.ok anchor =>
        match resolve key anchor.Value rest with
        | Except.error e => ⟨Outcome.error e, t, [StoreOp.Read key]⟩
        | Except.ok value =>
          match env.pbcopyErr value with
          | some e => ⟨Outcome.error (CmdError.pbcopy e), t, [StoreOp.Read key]⟩
          | none =>
            match env.openErr value with
            | some e => ⟨Outcome.error (CmdError.openCmd e), t, [StoreOp.Read key]⟩
            | none => ⟨Outcome.ok (Success.opened value), t, [StoreOp.Read key]⟩

/-- Command `update.RunE`; `cobra.ExactArgs(1)` hands it exactly one argument. -/
def update (env : Env) (t : Table) (input : Str) : Run :=
  match parseAssignment input with
  | none => ⟨Outcome.error CmdError.invalidFormat, t, []⟩
  | some (key, newValue) =>
    match env.dbNewErr with
    | some e => ⟨Outcome.error (CmdError.databaseNew e), t, []⟩
    | none =>
      match Store.Read env.scan t key with
      | Except.error e => ⟨Outcome.error (CmdError.dbRead e), t, [StoreOp.Read key]⟩
      | Except.ok anchor =>
        match Store.Update t ⟨anchor.Id, key, newValue⟩ with
        | (some e, t1) =>
          ⟨Outcome.error (CmdError.dbUpdate e), t1,
            [StoreOp.Read key, StoreOp.Update ⟨anchor.Id, key, newValue⟩]⟩
        | (none, t1) =>
          ⟨Outcome.ok (Success.updated key newValue), t1,
            [StoreOp.Read key, StoreOp.Update ⟨anchor.Id, key, newValue⟩]⟩

/-- Command `delete.RunE`; `cobra.ExactArgs(1)` hands it exactly one argument. -/
def delete (env : Env) (t : Table) (key : Str) : Run :=
  match env.dbNewErr with
  | some e => ⟨Outcome.error (CmdError.databaseNew e), t, []⟩
  | none =>
    match Store.Delete t key with
    | (some e, t1) => ⟨Outcome.error (CmdError.dbDelete e), t1, [StoreOp.Delete key]⟩
    | (none, t1) => ⟨Outcome.ok (Success.deleted key), t1, [StoreOp.Delete key]⟩

/-- The Go slice expression `xs[n:]`: a run-time panic (`none`) when `n` exceeds
the length. -/
def sliceFrom {α : Type} (xs : List α) (n : Nat) : Option (List α) :=
  if n ≤ xs.length then some (xs.drop n) else none

/-- The body of the extraction loop of `importc.RunE` (333-340): a record with
fewer than two fields is passed over. -/
def recordAnchor : List Str → Option Anchor
  | key :: value :: _ => some ⟨0, key, value⟩
  | _ => none

/-- The row extraction of `importc.RunE` (331-341): the loop over `records[1:]`;
`none` is the panic of the slice expression. -/
def extractAnchors (records : List (List Str)) : Option (List Anchor) :=
  match sliceFrom records 1 with
  | none => none
  | some rows => some (rows.filterMap recordAnchor)

/-- Command `importc.RunE` from `csvReader.ReadAll()` on: `csv` is what the read of the
file or URL and the CSV reader returned (295-329). -/
def importc (env : Env) (t : Table) (csv : Except Str (List (List Str))) : Run :=
  match csv with
  | Except.error e => ⟨Outcome.error (CmdError.csvRead e), t, []⟩
  | Except.ok records =>
    match extractAnchors records with
    | none => ⟨Outcome.panic, t, []⟩
    | some anchors =>
      if anchors.length = 0 then ⟨Outcome.error CmdError.noValidAnchors, t, []⟩
      else
        match env.dbNewErr with
        | some e => ⟨Outcome.error (CmdError.databaseNew e), t, []⟩
        | none =>
          match Store.Import t anchors with
          | (some e, t1) => ⟨Outcome.error (CmdError.dbImport e), t1, [StoreOp.Import anchors]⟩
          | (none, t1) => ⟨Outcome.ok Success.imported, t1, [StoreOp.Import anchors]⟩

/-! ## Vocabulary of the statements and of the proofs -/

/-- An environment in which the database opens, both sinks succeed and `Scan`
returns every row as it is stored. -/
def envOk : Env := ⟨none, fun _ => none, fun _ => none, fun a => a⟩

/-- Every `$` of the text is immediately followed by a character satisfying `P`. -/
def dollarsLed (P : Char → Bool) : Str → Bool
  | [] => true
  | [c] => c != '$'
  | c :: d :: rest => (c != '$' || P d) && dollarsLed P (d :: rest)

/-- The simultaneous substitution of two-character tokens: `$d` becomes `r` when
`σ d = some r`, in one left-to-right scan. -/
def fillWith (σ : Char → Option Str) : Str → Str
  | [] => []
  | [c] => [c]
  | c :: d :: rest =>
    if c = '$' then
      match σ d with
      | some r => r ++ fillWith σ rest
      | none => c :: fillWith σ (d :: rest)
    else c :: fillWith σ (d :: rest)

/-- The table `σ` with the entry `e ↦ arg` added. -/
def bindDigit (σ : Char → Option Str) (e : Char) (arg : Str) : Char → Option Str :=
  fun d => if d = e then some arg else σ d

/-- The table after the passes `i+1, i+2, ...` over `args`. -/
def extend (σ : Char → Option Str) : Nat → List Str → Char → Option Str
  | _, [] => σ
  | i, arg :: rest => extend (bindDigit σ (Nat.digitChar (i + 1)) arg) (i + 1) rest

/-- The character is a decimal digit `1..min n 9`. -/
def digitUpTo (n : Nat) (d : Char) : Bool :=
  (List.range' 1 (min n 9)).any (fun k => Nat.digitChar k == d)

/-- The template `s0 ++ "$p1" ++ s1 ++ ... ++ "$pn" ++ sn`, a hole being the
pair of a placeholder number and the literal segment after it. -/
def template (s0 : Str) (holes : List (Nat × Str)) : Str :=
  s0 ++ holes.flatMap (fun h => sprintfPlaceholder h.1 ++ h.2)

/-- The simultaneous positional substitution `s0 ++ A[p1-1] ++ s1 ++ ...`. -/
def simultaneous (A : List Str) (s0 : Str) (holes : List (Nat × Str)) : Str :=
  s0 ++ holes.flatMap (fun h => A.getD (h.1 - 1) [] ++ h.2)

/-- The token `tok` occurs somewhere in `s`. -/
def occurs (tok : Str) : Str → Bool
  | [] => hasPrefix [] tok
  | c :: cs => hasPrefix (c :: cs) tok || occurs tok cs

/-- The text after a `$` begins with the decimal digits of some `k` in `1..n`. -/
def beginsPlaceholder (n : Nat) (rest : Str) : Bool :=
  (List.range' 1 n).any (fun k => hasPrefix rest (Nat.toDigits 10 k))

/-- Every `$` of the text begins a well-formed placeholder `$k` with `1 ≤ k ≤ n`. -/
def wellFormed (n : Nat) : Str → Bool
  | [] => true
  | c :: rest => (c != '$' || beginsPlaceholder n rest) && wellFormed n rest

/-- The character is one of the digits `1` to `9`. -/
def isDigit19 (d : Char) : Bool := ['1', '2', '3', '4', '5', '6', '7', '8', '9'].contains d

/-! ## Lemmas -/

theorem digitChar_ne_dollar {k : Nat} (hk : k ≤ 9) : Nat.digitChar k ≠ '$' := by
  interval_cases k <;> decide

theorem digitChar_inj {j k : Nat} (hj : j ≤ 9) (hk : k ≤ 9)
    (h : Nat.digitChar j = Nat.digitChar k) : j = k := by
  interval_cases j <;> interval_cases k <;> first | rfl | (exact absurd h (by decide))

theorem toDigits_of_le_nine {k : Nat} (hk : k ≤ 9) : Nat.toDigits 10 k = [Nat.digitChar k] := by
  interval_cases k <;> rfl

theorem sprintfPlaceholder_of_le_nine {k : Nat} (hk : k ≤ 9) :
    sprintfPlaceholder k = ['$', Nat.digitChar k] := by
  simp [sprintfPlaceholder, toDigits_of_le_nine hk]

theorem replaceFrom_of_not_mem (old new : Str) (s : Str) (h : '$' ∉ s) :
    replaceFrom ('$' :: old) new 0 s = s := by
  induction s with
  | nil => rfl
  | cons c cs ih =>
    have hc : c ≠ '$' := fun e => h (by simp [e])
    have hcs : '$' ∉ cs := fun e => h (by simp [e])
    simp [replaceFrom, hasPrefix, hc, ih hcs]

theorem replaceFrom_cons_of_ne (old new : Str) (c : Char) (s : Str) (hc : c ≠ '$') :
    replaceFrom ('$' :: old) new 0 (c :: s) = c :: replaceFrom ('$' :: old) new 0 s := by
  simp [replaceFrom, hasPrefix, hc]

theorem replaceFrom_append_of_not_mem (old new : Str) (u v : Str) (h : '$' ∉ u) :
    replaceFrom ('$' :: old) new 0 (u ++ v) = u ++ replaceFrom ('$' :: old) new 0 v := by
  induction u with
  | nil => rfl
  | cons c cs ih =>
    have hc : c ≠ '$' := fun e => h (by simp [e])
    have hcs : '$' ∉ cs := fun e => h (by simp [e])
    simp [replaceFrom, hasPrefix, hc, ih hcs]

theorem fillWith_cons_of_ne (σ : Char → Option Str) (c : Char) (s : Str) (hc : c ≠ '$') :
    fillWith σ (c :: s) = c :: fillWith σ s := by
  cases s with
  | nil => rfl
  | cons d rest => simp [fillWith, hc]

theorem fillWith_append_of_not_mem (σ : Char → Option Str) (u v : Str) (h : '$' ∉ u) :
    fillWith σ (u ++ v) = u ++ fillWith σ v := by
  induction u with
  | nil => rfl
  | cons c cs ih =>
    have hc : c ≠ '$' := fun e => h (by simp [e])
    have hcs : '$' ∉ cs := fun e => h (by simp [e])
    simp [fillWith_cons_of_ne σ c _ hc, ih hcs]

theorem dollarsLed_tail (P : Char → Bool) (c : Char) (s : Str)
    (h : dollarsLed P (c :: s) = true) : dollarsLed P s = true := by
  cases s with
  | nil => rfl
  | cons d rest => simp [dollarsLed] at h; exact h.2

theorem dollarsLed_cons_of_ne (P : Char → Bool) (c : Char) (s : Str) (hc : c ≠ '$') :
    dollarsLed P (c :: s) = dollarsLed P s := by
  cases s with
  | nil => simp [dollarsLed, hc]
  | cons d rest => simp [dollarsLed, hc]

theorem dollarsLed_append_of_not_mem (P : Char → Bool) (u v : Str) (h : '$' ∉ u) :
    dollarsLed P (u ++ v) = dollarsLed P v := by
  induction u with
  | nil => rfl
  | cons c cs ih =>
    have hc : c ≠ '$' := fun e => h (by simp [e])
    have hcs : '$' ∉ cs := fun e => h (by simp [e])
    simp [dollarsLed_cons_of_ne P c _ hc, ih hcs]

/-- One pass of the loop on a simultaneously substituted text adds one entry to
the table. -/
theorem replaceFrom_fillWith (P : Char → Bool) (hP : ∀ d, P d = true → d ≠ '$')
    (σ : Char → Option Str) (e : Char) (arg : Str) (he : e ≠ '$') (hσe : σ e = none)
    (hσ : ∀ d r, σ d = some r → '$' ∉ r) (s : Str) (hs : dollarsLed P s = true) :
    replaceFrom ['$', e] arg 0 (fillWith σ s) = fillWith (bindDigit σ e arg) s := by
  induction s using fillWith.induct σ with
  | case1 => rfl
  | case2 c =>
    by_cases hc : c = '$'
    · subst hc; simp [fillWith, replaceFrom, hasPrefix]
    · simp [fillWith, replaceFrom, hasPrefix, hc]
  | case3 d rest r hd ih =>
    have hde : d ≠ e := fun h => by rw [h, hσe] at hd; cases hd
    have hrest := dollarsLed_tail P _ _ (dollarsLed_tail P _ _ hs)
    simp only [fillWith, if_true, hd, bindDigit, hde, if_false]
    rw [replaceFrom_append_of_not_mem _ _ _ _ (hσ d r hd), ih hrest]
  | case4 d rest hd ih =>
    have hPd : d ≠ '$' := by
      simp [dollarsLed] at hs
      exact hP d hs.1
    have ih2 := ih (dollarsLed_tail P _ _ hs)
    rw [fillWith_cons_of_ne σ d rest hPd, fillWith_cons_of_ne _ d rest hPd,
      replaceFrom_cons_of_ne _ _ _ _ hPd] at ih2
    have ih3 := List.tail_eq_of_cons_eq ih2
    by_cases hde : d = e
    · subst hde
      simp only [fillWith, if_true, hd, bindDigit]
      rw [fillWith_cons_of_ne σ d rest hPd]
      simp only [replaceFrom, hasPrefix, beq_self_eq_true, Bool.and_self, if_true,
        List.length_cons, List.length_nil]
      rw [ih3]
    · simp only [fillWith, if_true, hd, bindDigit, hde, if_false]
      rw [fillWith_cons_of_ne σ d rest hPd, fillWith_cons_of_ne _ d rest hPd]
      have h1 : (d == e) = false := by simp [hde]
      have h2 : (d == '$') = false := by simp [hPd]
      simp [replaceFrom, hasPrefix, h1, h2, ih3]
  | case5 c d rest hc ih =>
    have ih2 := ih (dollarsLed_tail P _ _ hs)
    simp only [fillWith, hc, if_false]
    rw [replaceFrom_cons_of_ne _ _ _ _ hc, ih2]

theorem replaceAll_dollar (s old new : Str) :
    replaceAll s ('$' :: old) new = replaceFrom ('$' :: old) new 0 s := rfl

theorem fillWith_none (s : Str) : fillWith (fun _ => none) s = s := by
  induction s using fillWith.induct (fun _ => none) with
  | case1 => rfl
  | case2 c => rfl
  | case3 d rest r hd ih => cases hd
  | case4 d rest hd ih => simp [fillWith, ih]
  | case5 c d rest hc ih => simp [fillWith, hc, ih]

theorem substitute_of_not_mem (args : List Str) (i : Nat) (s : Str) (h : '$' ∉ s) :
    substitute i args s = s := by
  induction args generalizing i with
  | nil => rfl
  | cons arg rest ih =>
    simp only [substitute, sprintfPlaceholder, replaceAll_dollar]
    rw [replaceFrom_of_not_mem _ _ _ h, ih]

theorem substitute_append (xs ys : List Str) (i : Nat) (s : Str) :
    substitute i (xs ++ ys) s = substitute (i + xs.length) ys (substitute i xs s) := by
  induction xs generalizing i s with
  | nil => rfl
  | cons x xs ih =>
    show substitute (i + 1) (xs ++ ys) _ = substitute (i + (xs.length + 1)) ys _
    rw [ih]
    congr 1
    omega

theorem substitute_fillWith (P : Char → Bool) (hP : ∀ d, P d = true → d ≠ '$')
    (s : Str) (hs : dollarsLed P s = true) (args : List Str) :
    ∀ (i : Nat) (σ : Char → Option Str), i + args.length ≤ 9 →
      (∀ k, i < k → k ≤ 9 → σ (Nat.digitChar k) = none) →
      (∀ d r, σ d = some r → '$' ∉ r) → (∀ a ∈ args, '$' ∉ a) →
      substitute i args (fillWith σ s) = fillWith (extend σ i args) s := by
  induction args with
  | nil => intro i σ _ _ _ _; rfl
  | cons arg rest ih =>
    intro i σ hi hnone himg hargs
    simp only [List.length_cons] at hi
    have h9 : i + 1 ≤ 9 := by omega
    simp only [substitute, extend]
    rw [sprintfPlaceholder_of_le_nine h9, replaceAll_dollar,
      replaceFrom_fillWith P hP σ _ arg (digitChar_ne_dollar h9)
        (hnone (i + 1) (by omega) h9) himg s hs]
    apply ih (i + 1) _ (by omega)
    · intro k hk hk9
      have hne : Nat.digitChar k ≠ Nat.digitChar (i + 1) := fun h => by
        have := digitChar_inj hk9 h9 h
        omega
      simp only [bindDigit, hne, if_false]
      exact hnone k (by omega) hk9
    · intro d r hdr
      simp only [bindDigit] at hdr
      split at hdr
      · cases hdr
        exact hargs arg (by simp)
      · exact himg d r hdr
    · intro a ha
      exact hargs a (by simp [ha])

theorem extend_digitChar (args : List Str) :
    ∀ (i : Nat) (σ : Char → Option Str) (p : Nat), i + args.length ≤ 9 → p ≤ 9 →
      extend σ i args (Nat.digitChar p) =
        if i < p ∧ p ≤ i + args.length then args[p - i - 1]? else σ (Nat.digitChar p) := by
  induction args with
  | nil =>
    intro i σ p _ _
    have : ¬ (i < p ∧ p ≤ i + ([] : List Str).length) := by simp
    simp only [extend, this, if_false]
  | cons a rest ih =>
    intro i σ p hi hp
    simp only [List.length_cons] at hi
    simp only [extend, List.length_cons]
    rw [ih (i + 1) _ p (by omega) hp]
    by_cases h1 : i + 1 < p ∧ p ≤ i + 1 + rest.length
    · have h2 : i < p ∧ p ≤ i + (rest.length + 1) := by omega
      have h3 : p - i - 1 = (p - (i + 1) - 1) + 1 := by omega
      rw [if_pos h1, if_pos h2, h3, List.getElem?_cons_succ]
    · rw [if_neg h1]
      by_cases h4 : p = i + 1
      · subst h4
        have h2 : i < i + 1 ∧ i + 1 ≤ i + (rest.length + 1) := by omega
        simp [bindDigit, h2]
      · have h2 : ¬ (i < p ∧ p ≤ i + (rest.length + 1)) := by omega
        have hne : Nat.digitChar p ≠ Nat.digitChar (i + 1) := fun h =>
          h4 (digitChar_inj hp (by omega) h)
        simp only [bindDigit, hne, if_false, h2]

theorem extend_image (args : List Str) :
    ∀ (i : Nat) (σ : Char → Option Str), (∀ d r, σ d = some r → '$' ∉ r) →
      (∀ a ∈ args, '$' ∉ a) → ∀ d r, extend σ i args d = some r → '$' ∉ r := by
  induction args with
  | nil => intro i σ himg _ d r h; exact himg d r h
  | cons a rest ih =>
    intro i σ himg hargs d r h
    refine ih (i + 1) _ ?_ (fun x hx => hargs x (by simp [hx])) d r h
    intro d r hdr
    simp only [bindDigit] at hdr
    split at hdr
    · cases hdr
      exact hargs a (by simp)
    · exact himg d r hdr

theorem not_mem_fillWith (σ : Char → Option Str) (hσ : ∀ d r, σ d = some r → '$' ∉ r)
    (s : Str) (hs : dollarsLed (fun d => (σ d).isSome) s = true) : '$' ∉ fillWith σ s := by
  induction s using fillWith.induct σ with
  | case1 => simp [fillWith]
  | case2 c =>
    simp [dollarsLed] at hs
    simp [fillWith, Ne.symm hs]
  | case3 d rest r hd ih =>
    have hrest := dollarsLed_tail _ _ _ (dollarsLed_tail _ _ _ hs)
    simp only [fillWith, if_true, hd, List.mem_append, not_or]
    exact ⟨hσ d r hd, ih hrest⟩
  | case4 d rest hd ih =>
    simp [dollarsLed, hd] at hs
  | case5 c d rest hc ih =>
    have ih2 := ih (dollarsLed_tail _ _ _ hs)
    simp only [fillWith, hc, if_false, List.mem_cons, not_or]
    exact ⟨Ne.symm hc, ih2⟩

theorem dollarsLed_mono (P Q : Char → Bool) (h : ∀ d, P d = true → Q d = true) (s : Str)
    (hs : dollarsLed P s = true) : dollarsLed Q s = true := by
  induction s using dollarsLed.induct P with
  | case1 => rfl
  | case2 c => exact hs
  | case3 c d rest ih =>
    simp only [dollarsLed, Bool.and_eq_true, Bool.or_eq_true] at hs ⊢
    exact ⟨hs.1.imp id (h d), ih hs.2⟩

theorem digitUpTo_iff (n : Nat) (d : Char) :
    digitUpTo n d = true ↔ ∃ k, 1 ≤ k ∧ k ≤ 9 ∧ k ≤ n ∧ d = Nat.digitChar k := by
  simp only [digitUpTo, List.any_eq_true, List.mem_range'_1, beq_iff_eq]
  constructor
  · rintro ⟨k, ⟨h1, h2⟩, h3⟩
    exact ⟨k, h1, by omega, by omega, h3.symm⟩
  · rintro ⟨k, h1, h2, h3, h4⟩
    exact ⟨k, ⟨h1, by omega⟩, h4.symm⟩

/-- The loop equals the simultaneous substitution of the first nine arguments,
and leaves no `$`, when every `$` is followed by a digit `1..min n 9` and no
argument holds a `$`. -/
theorem substitute_eq_fillWith (T : Str) (A : List Str) (hA : ∀ a ∈ A, '$' ∉ a)
    (hT : dollarsLed (digitUpTo A.length) T = true) :
    substitute 0 A T = fillWith (extend (fun _ => none) 0 (A.take 9)) T ∧
      '$' ∉ substitute 0 A T := by
  have hlen : (A.take 9).length = min 9 A.length := List.length_take 9 A
  have hP : ∀ d, digitUpTo A.length d = true → d ≠ '$' := by
    intro d hd
    obtain ⟨k, _, h9, _, rfl⟩ := (digitUpTo_iff _ _).1 hd
    exact digitChar_ne_dollar h9
  have htake : ∀ a ∈ A.take 9, '$' ∉ a := fun a ha => hA a (List.mem_of_mem_take ha)
  have h1 : substitute 0 (A.take 9) T = fillWith (extend (fun _ => none) 0 (A.take 9)) T := by
    have := substitute_fillWith (digitUpTo A.length) hP T hT (A.take 9) 0 (fun _ => none)
      (by rw [hlen]; omega) (fun _ _ _ => rfl) (fun d r h => by cases h) htake
    rwa [fillWith_none] at this
  have himg := extend_image (A.take 9) 0 (fun _ => none) (fun d r h => by cases h) htake
  have h2 : '$' ∉ fillWith (extend (fun _ => none) 0 (A.take 9)) T := by
    apply not_mem_fillWith _ himg
    apply dollarsLed_mono _ _ _ T hT
    intro d hd
    obtain ⟨k, hk1, hk9, hkn, rfl⟩ := (digitUpTo_iff _ _).1 hd
    rw [extend_digitChar _ 0 _ k (by rw [hlen]; omega) hk9]
    have hc : 0 < k ∧ k ≤ 0 + (A.take 9).length := by rw [hlen]; omega
    rw [if_pos hc]
    have hk : k - 0 - 1 < (A.take 9).length := by rw [hlen]; omega
    rw [List.getElem?_eq_getElem hk]
    rfl
  have h3 : substitute 0 A T = substitute 0 (A.take 9) T := by
    conv_lhs => rw [← List.take_append_drop 9 A]
    rw [substitute_append, substitute_of_not_mem _ _ _ (h1 ▸ h2)]
  rw [h3, h1]
  exact ⟨rfl, h2⟩

theorem count_append (u v : Str) : count (u ++ v) '$' = count u '$' + count v '$' := by
  simp [count]

theorem count_of_not_mem (u : Str) (h : '$' ∉ u) : count u '$' = 0 := by
  simp [count, List.count_eq_zero, h]

theorem holes_count (holes : List (Nat × Str))
    (h : ∀ x ∈ holes, x.1 ≤ 9 ∧ '$' ∉ x.2) :
    count (holes.flatMap (fun x => sprintfPlaceholder x.1 ++ x.2)) '$' = holes.length := by
  induction holes with
  | nil => rfl
  | cons x xs ih =>
    obtain ⟨h9, hx⟩ := h x (by simp)
    have ih2 := ih (fun y hy => h y (by simp [hy]))
    have hd : Nat.digitChar x.1 ≠ '$' := digitChar_ne_dollar h9
    simp only [List.flatMap_cons, count_append, ih2, sprintfPlaceholder_of_le_nine h9,
      count_of_not_mem _ hx, List.length_cons]
    simp [count, List.count_cons, hd]
    omega

theorem holes_dollarsLed (n : Nat) (holes : List (Nat × Str))
    (h : ∀ x ∈ holes, (1 ≤ x.1 ∧ x.1 ≤ 9 ∧ x.1 ≤ n) ∧ '$' ∉ x.2) :
    dollarsLed (digitUpTo n) (holes.flatMap (fun x => sprintfPlaceholder x.1 ++ x.2)) = true := by
  induction holes with
  | nil => rfl
  | cons x xs ih =>
    obtain ⟨⟨h1, h9, hn⟩, hx⟩ := h x (by simp)
    have ih2 := ih (fun y hy => h y (by simp [hy]))
    have hd : Nat.digitChar x.1 ≠ '$' := digitChar_ne_dollar h9
    have hP : digitUpTo n (Nat.digitChar x.1) = true :=
      (digitUpTo_iff _ _).2 ⟨x.1, h1, h9, hn, rfl⟩
    simp only [List.flatMap_cons, sprintfPlaceholder_of_le_nine h9, List.cons_append,
      List.nil_append, dollarsLed, hP, Bool.or_true, Bool.true_and]
    rw [dollarsLed_cons_of_ne _ _ _ hd, dollarsLed_append_of_not_mem _ _ _ hx]
    exact ih2

theorem holes_fillWith (σ : Char → Option Str) (A : List Str) (holes : List (Nat × Str))
    (h : ∀ x ∈ holes, (x.1 ≤ 9 ∧ σ (Nat.digitChar x.1) = some (A.getD (x.1 - 1) [])) ∧ '$' ∉ x.2) :
    fillWith σ (holes.flatMap (fun x => sprintfPlaceholder x.1 ++ x.2)) =
      holes.flatMap (fun x => A.getD (x.1 - 1) [] ++ x.2) := by
  induction holes with
  | nil => rfl
  | cons x xs ih =>
    obtain ⟨⟨h9, hσ⟩, hx⟩ := h x (by simp)
    have ih2 := ih (fun y hy => h y (by simp [hy]))
    simp only [List.flatMap_cons, sprintfPlaceholder_of_le_nine h9, List.cons_append,
      List.nil_append, fillWith, if_true, hσ]
    rw [fillWith_append_of_not_mem _ _ _ hx, ih2, List.append_assoc]

theorem toDigitsCore_head (fuel : Nat) :
    ∀ (n : Nat) (ds : List Char), n < fuel → 1 ≤ n →
      ∃ d t, Nat.toDigitsCore 10 fuel n ds = Nat.digitChar d :: t ∧ 1 ≤ d ∧ d ≤ 9 ∧ d ≤ n := by
  induction fuel with
  | zero => intro n ds h; omega
  | succ fuel ih =>
    intro n ds hlt h1
    unfold Nat.toDigitsCore
    by_cases h0 : n / 10 = 0
    · simp only [h0, if_true]
      have hn : n < 10 := by omega
      exact ⟨n % 10, ds, rfl, by omega, by omega, by omega⟩
    · simp only [h0, if_false]
      obtain ⟨d, t, he, hd1, hd9, hdn⟩ :=
        ih (n / 10) (Nat.digitChar (n % 10) :: ds) (by omega) (by omega)
      exact ⟨d, t, he, hd1, hd9, by omega⟩

theorem toDigits_head (k : Nat) (hk : 1 ≤ k) :
    ∃ d t, Nat.toDigits 10 k = Nat.digitChar d :: t ∧ 1 ≤ d ∧ d ≤ 9 ∧ d ≤ k :=
  toDigitsCore_head (k + 1) k [] (by omega) hk

theorem hasPrefix_cons (s : Str) (a : Char) (p : Str) (h : hasPrefix s (a :: p) = true) :
    ∃ t, s = a :: t := by
  cases s with
  | nil => simp [hasPrefix] at h
  | cons c cs =>
    simp [hasPrefix] at h
    exact ⟨cs, by rw [h.1]⟩

theorem wellFormed_dollarsLed (n : Nat) (s : Str) (h : wellFormed n s = true) :
    dollarsLed (digitUpTo n) s = true := by
  induction s with
  | nil => rfl
  | cons c rest ih =>
    simp only [wellFormed, Bool.and_eq_true, Bool.or_eq_true] at h
    have ih2 := ih h.2
    by_cases hc : c = '$'
    · subst hc
      have hb : beginsPlaceholder n rest = true := by
        rcases h.1 with h1 | h1
        · simp at h1
        · exact h1
      simp only [beginsPlaceholder, List.any_eq_true, List.mem_range'_1] at hb
      obtain ⟨k, ⟨hk1, hkn⟩, hpre⟩ := hb
      obtain ⟨d, t, hd, hd1, hd9, hdk⟩ := toDigits_head k hk1
      rw [hd] at hpre
      obtain ⟨tail, rfl⟩ := hasPrefix_cons _ _ _ hpre
      have hP : digitUpTo n (Nat.digitChar d) = true :=
        (digitUpTo_iff _ _).2 ⟨d, hd1, hd9, by omega, rfl⟩
      simp only [dollarsLed, hP, Bool.or_true, Bool.true_and]
      exact ih2
    · rw [dollarsLed_cons_of_ne _ _ _ hc]
      exact ih2

theorem isDigit19_digitUpTo (n : Nat) (hn : 9 ≤ n) (d : Char) (h : isDigit19 d = true) :
    digitUpTo n d = true := by
  rw [digitUpTo_iff]
  simp only [isDigit19, List.contains_eq_any_beq, List.any_cons, List.any_nil, Bool.or_false,
    Bool.or_eq_true, beq_iff_eq] at h
  rcases h with h | h | h | h | h | h | h | h | h
  · exact ⟨1, by omega, by omega, by omega, h.symm ▸ rfl⟩
  · exact ⟨2, by omega, by omega, by omega, h.symm ▸ rfl⟩
  · exact ⟨3, by omega, by omega, by omega, h.symm ▸ rfl⟩
  · exact ⟨4, by omega, by omega, by omega, h.symm ▸ rfl⟩
  · exact ⟨5, by omega, by omega, by omega, h.symm ▸ rfl⟩
  · exact ⟨6, by omega, by omega, by omega, h.symm ▸ rfl⟩
  · exact ⟨7, by omega, by omega, by omega, h.symm ▸ rfl⟩
  · exact ⟨8, by omega, by omega, by omega, h.symm ▸ rfl⟩
  · exact ⟨9, by omega, by omega, by omega, h.symm ▸ rfl⟩

theorem occurs_dollar (ds s : Str) (h : '$' ∉ s) : occurs ('$' :: ds) s = false := by
  induction s with
  | nil => rfl
  | cons c cs ih =>
    have hc : c ≠ '$' := fun e => h (by simp [e])
    have hcs : '$' ∉ cs := fun e => h (by simp [e])
    simp [occurs, hasPrefix, hc, ih hcs]

theorem replaceFrom_two_append (a b : Char) (hab : a ≠ b) (new w : Str) (n : Nat) :
    ∀ u : Str, u.length ≤ n →
      replaceFrom [a, b] new 0 (u ++ a :: b :: w) =
        replaceFrom [a, b] new 0 u ++ new ++ replaceFrom [a, b] new 0 w := by
  induction n with
  | zero =>
    intro u hu
    have : u = [] := List.length_eq_zero.1 (by omega)
    subst this
    simp [replaceFrom, hasPrefix]
  | succ n ih =>
    intro u hu
    match u, hu with
    | [], _ => simp [replaceFrom, hasPrefix]
    | [c], _ =>
      have hba : (a == b) = false := by simp [hab]
      simp [replaceFrom, hasPrefix, hba]
    | c :: d :: u1, hu =>
      simp only [List.length_cons] at hu
      have ih1 := ih u1 (by omega)
      have ih2 := ih (d :: u1) (by simp only [List.length_cons]; omega)
      by_cases hm : c = a ∧ d = b
      · obtain ⟨rfl, rfl⟩ := hm
        simp [replaceFrom, hasPrefix, ih1]
      · have hf : (c == a && d == b) = false := by
          simp only [Bool.and_eq_false_imp, beq_iff_eq, beq_eq_false_iff_ne]
          intro h1 h2
          exact hm ⟨h1, h2⟩
        have e1 : replaceFrom [a, b] new 0 (c :: d :: u1 ++ a :: b :: w) =
            c :: replaceFrom [a, b] new 0 (d :: u1 ++ a :: b :: w) := by
          simp only [List.cons_append, replaceFrom, hasPrefix, Bool.and_true]
          rw [hf]; rfl
        have e2 : replaceFrom [a, b] new 0 (c :: d :: u1) =
            c :: replaceFrom [a, b] new 0 (d :: u1) := by
          simp only [replaceFrom, hasPrefix, Bool.and_true]
          rw [hf]; rfl
        rw [e1, e2, ih2]
        rfl

theorem hasKey_iff (t : Table) (k : Str) : hasKey t k = true ↔ k ∈ t.map Anchor.Key := by
  simp only [hasKey, List.any_eq_true, beq_iff_eq, List.mem_map]

theorem hasKey_append (t u : Table) (k : Str) : hasKey (t ++ u) k = (hasKey t k || hasKey u k) := by
  simp [hasKey]

theorem indexOf_cons_of_ne {a b : Str} (l : List Str) (h : b ≠ a) :
    List.indexOf a (b :: l) = List.indexOf a l + 1 := by
  have hf : (b == a) = false := by simpa using h
  rw [List.indexOf_cons, hf]
  rfl

theorem cString_of_not_mem (s : Str) (h : nul ∉ s) : cString s = s := by
  induction s with
  | nil => rfl
  | cons c cs ih =>
    have hc : c ≠ nul := fun e => h (by simp [e])
    have hcs : nul ∉ cs := fun e => h (by simp [e])
    simp [cString, hc, ih hcs]

theorem insertOrIgnore_of_not_mem (t : Table) (a : Anchor) (hk : nul ∉ a.Key)
    (hv : nul ∉ a.Value) :
    insertOrIgnore t a = if hasKey t a.Key then t else t ++ [⟨nextId t, a.Key, a.Value⟩] := by
  simp only [insertOrIgnore, cString_of_not_mem _ hk, cString_of_not_mem _ hv]

theorem foldl_insertOrIgnore (R : List Anchor) (hR : ∀ r ∈ R, nul ∉ r.Key ∧ nul ∉ r.Value) :
    ∀ t : Table, ∃ new : List Anchor,
    R.foldl insertOrIgnore t = t ++ new ∧ (new.map Anchor.Key).Nodup ∧
    (∀ k, k ∈ new.map Anchor.Key ↔ k ∈ R.map Anchor.Key ∧ hasKey t k = false) ∧
    (∀ a ∈ new, (R.find? (fun r => r.Key == a.Key)).map Anchor.Value = some a.Value) ∧
    new.Pairwise (fun x y =>
      (R.map Anchor.Key).indexOf x.Key < (R.map Anchor.Key).indexOf y.Key) := by
  induction R with
  | nil =>
    intro t
    exact ⟨[], by simp, by simp, by simp, by simp, by simp⟩
  | cons r R ih =>
    intro t
    have ih := ih (fun x hx => hR x (by simp [hx]))
    have hins := insertOrIgnore_of_not_mem t r (hR r (by simp)).1 (hR r (by simp)).2
    by_cases hk : hasKey t r.Key = true
    · obtain ⟨new, h1, h2, h3, h4, h5⟩ := ih t
      have hne : ∀ a ∈ new, r.Key ≠ a.Key := by
        intro a ha he
        have := ((h3 a.Key).1 (List.mem_map_of_mem Anchor.Key ha)).2
        rw [← he, hk] at this
        cases this
      refine ⟨new, ?_, h2, ?_, ?_, ?_⟩
      · simp only [List.foldl_cons, hins, hk, if_true]
        exact h1
      · intro k
        rw [h3 k]
        simp only [List.map_cons, List.mem_cons]
        constructor
        · rintro ⟨ha, hb⟩
          exact ⟨Or.inr ha, hb⟩
        · rintro ⟨ha | ha, hb⟩
          · rw [ha, hk] at hb
            cases hb
          · exact ⟨ha, hb⟩
      · intro a ha
        have hf : (r.Key == a.Key) = false := by simpa using hne a ha
        rw [List.find?_cons, hf]
        exact h4 a ha
      · refine List.Pairwise.imp_of_mem ?_ h5
        intro x y hx hy hxy
        simp only [List.map_cons]
        rw [indexOf_cons_of_ne _ (hne x hx), indexOf_cons_of_ne _ (hne y hy)]
        exact Nat.succ_lt_succ hxy
    · have hk2 : hasKey t r.Key = false := by simpa using hk
      obtain ⟨new, h1, h2, h3, h4, h5⟩ := ih (t ++ [⟨nextId t, r.Key, r.Value⟩])
      have hne : ∀ a ∈ new, r.Key ≠ a.Key := by
        intro a ha he
        have := ((h3 a.Key).1 (List.mem_map_of_mem Anchor.Key ha)).2
        rw [hasKey_append, ← he] at this
        simp [hasKey] at this
      refine ⟨⟨nextId t, r.Key, r.Value⟩ :: new, ?_, ?_, ?_, ?_, ?_⟩
      · simp only [List.foldl_cons, hins, hk2, Bool.false_eq_true, if_false]
        rw [h1]
        simp
      · simp only [List.map_cons, List.nodup_cons]
        refine ⟨?_, h2⟩
        intro hmem
        obtain ⟨a, ha, hae⟩ := List.mem_map.1 hmem
        exact hne a ha hae.symm
      · intro k
        simp only [List.map_cons, List.mem_cons]
        rw [h3 k, hasKey_append]
        constructor
        · rintro (rfl | ⟨ha, hb⟩)
          · exact ⟨Or.inl rfl, hk2⟩
          · simp only [Bool.or_eq_false_iff] at hb
            exact ⟨Or.inr ha, hb.1⟩
        · rintro ⟨ha | ha, hb⟩
          · exact Or.inl ha
          · by_cases hkr : k = r.Key
            · exact Or.inl hkr
            · refine Or.inr ⟨ha, ?_⟩
              simp only [Bool.or_eq_false_iff]
              refine ⟨hb, ?_⟩
              simp [hasKey]
              exact fun h => hkr h.symm
      · intro a ha
        rcases List.mem_cons.1 ha with rfl | ha
        · simp
        · have hf : (r.Key == a.Key) = false := by simpa using hne a ha
          rw [List.find?_cons, hf]
          exact h4 a ha
      · rw [List.pairwise_cons]
        constructor
        · intro y hy
          simp only [List.map_cons]
          rw [indexOf_cons_of_ne _ (hne y hy)]
          simp [List.indexOf_cons]
        · refine List.Pairwise.imp_of_mem ?_ h5
          intro x y hx hy hxy
          simp only [List.map_cons]
          rw [indexOf_cons_of_ne _ (hne x hx), indexOf_cons_of_ne _ (hne y hy)]
          exact Nat.succ_lt_succ hxy

theorem cut_of_contains (c : Char) (s : Str) (h : contains s c = true) :
    ∃ key rest, cut c s = some (key, rest) ∧ s = key ++ c :: rest ∧ c ∉ key := by
  induction s with
  | nil => simp [contains] at h
  | cons x xs ih =>
    by_cases hx : x = c
    · subst hx
      exact ⟨[], xs, by simp [cut], rfl, by simp⟩
    · have hxs : contains xs c = true := by
        simp only [contains, List.elem_eq_mem, decide_eq_true_eq, List.mem_cons] at h ⊢
        rcases h with h | h
        · exact absurd h.symm hx
        · exact h
      obtain ⟨key, rest, h1, h2, h3⟩ := ih hxs
      refine ⟨x :: key, rest, by simp [cut, hx, h1], by simp [h2], ?_⟩
      simp only [List.mem_cons, not_or]
      exact ⟨fun e => hx e.symm, h3⟩

theorem cut_of_not_contains (c : Char) (s : Str) (h : contains s c = false) :
    cut c s = none := by
  induction s with
  | nil => rfl
  | cons x xs ih =>
    simp only [contains, List.elem_eq_mem, decide_eq_false_iff_not, List.mem_cons, not_or] at h ih
    have hx : x ≠ c := fun e => h.1 e.symm
    simp [cut, hx, ih h.2]

/-! ## The claims -/

/-- C1: for every stored template `T` and argument list `A`, resolution succeeds
exactly when the number of `$` in `T` equals the number of arguments, and in
every other case it is the `missing arguments` error, which carries no resolved
string; the lookup command then returns that error after its `Read`, and
neither sink receives a text. -/
theorem resolve_succeeds_iff_arity (key T : Str) (A : List Str) :
    ((∃ r, resolve key T A = Except.ok r) ↔ count T '$' = A.length) ∧
    (resolve key T A = Except.error (CmdError.missingArguments key T) ↔
      count T '$' ≠ A.length) ∧
    (∀ (env : Env) (t : Table) (id : Nat) (k : Str), env.dbNewErr = none →
      contains key '=' = false → Store.Read env.scan t key = Except.ok ⟨id, k, T⟩ →
      count T '$' ≠ A.length →
      rootCmd env t (key :: A) =
        ⟨Outcome.error (CmdError.missingArguments key T), t, [StoreOp.Read key]⟩) := by
  refine ⟨?_, ?_, ?_⟩
  · unfold resolve
    by_cases h : count T '$' = A.length <;> simp [h]
  · unfold resolve
    by_cases h : count T '$' = A.length <;> simp [h]
  · intro env t id k hdb hkey hread hne
    simp [rootCmd, parseArgs, hkey, hdb, hread, resolve, hne]

theorem resolve_succeeds_iff_arity_witness :
    rootCmd envOk [⟨1, "gh".toList, "static".toList⟩] ["gh".toList, "x".toList] =
      ⟨Outcome.error (CmdError.missingArguments "gh".toList "static".toList),
        [⟨1, "gh".toList, "static".toList⟩], [StoreOp.Read "gh".toList]⟩ :=
  (resolve_succeeds_iff_arity "gh".toList "static".toList ["x".toList]).2.2 envOk
    [⟨1, "gh".toList, "static".toList⟩] 1 "gh".toList rfl (by decide) rfl (by decide)

/-- C2, as the spec states it, fails: `$1 and $1` holds two `$`, so resolving it
with the single argument `x` is the arity error and returns no string. -/
theorem resolve_repeated_placeholder_one_arg :
    resolve "k".toList "$1 and $1".toList ["x".toList] =
        Except.error (CmdError.missingArguments "k".toList "$1 and $1".toList) ∧
      resolve "k".toList "$1 and $1".toList ["x".toList] ≠ Except.ok "x and x".toList := by
  constructor
  · rfl
  · intro h
    cases h

/-- C2 amended: every occurrence of a repeated placeholder counts toward the
arity; resolving `$1 and $1` with one argument is the arity error, and with two
arguments `x`, `y` both occurrences are replaced by the first: `x and x`. -/
theorem resolve_repeated_placeholder_two_args (key y : Str) :
    resolve key "$1 and $1".toList ["x".toList] =
        Except.error (CmdError.missingArguments key "$1 and $1".toList) ∧
      resolve key "$1 and $1".toList ["x".toList, y] = Except.ok "x and x".toList := by
  constructor
  · rfl
  · simp [resolve, count, substitute, replaceAll, sprintfPlaceholder, replaceFrom, hasPrefix,
      Nat.toDigits, Nat.digitChar, Nat.toDigitsCore]

/-- C3: for `n ≤ 9`, a permutation `p1..pn` of `1..n`, literal segments and
arguments free of `$`, resolving `s0 ++ "$p1" ++ s1 ++ ... ++ "$pn" ++ sn` with
the `n` arguments `A` succeeds and returns the simultaneous positional
substitution `s0 ++ A[p1-1] ++ s1 ++ ... ++ A[pn-1] ++ sn`. -/
theorem resolve_template_simultaneous (key s0 : Str) (holes : List (Nat × Str)) (A : List Str)
    (hn : A.length ≤ 9) (hperm : List.Perm (holes.map Prod.fst) (List.range' 1 A.length))
    (hs0 : '$' ∉ s0) (hseg : ∀ x ∈ holes, '$' ∉ x.2) (hA : ∀ a ∈ A, '$' ∉ a) :
    resolve key (template s0 holes) A = Except.ok (simultaneous A s0 holes) := by
  have hp : ∀ x ∈ holes, 1 ≤ x.1 ∧ x.1 ≤ A.length := by
    intro x hx
    have hm : x.1 ∈ List.range' 1 A.length :=
      hperm.subset (List.mem_map_of_mem Prod.fst hx)
    rw [List.mem_range'_1] at hm
    omega
  have hlen : holes.length = A.length := by
    simpa using hperm.length_eq
  have hcount : count (template s0 holes) '$' = A.length := by
    rw [template, count_append, count_of_not_mem _ hs0,
      holes_count holes (fun x hx => ⟨by have := hp x hx; omega, hseg x hx⟩), hlen]
    omega
  have hled : dollarsLed (digitUpTo A.length) (template s0 holes) = true := by
    rw [template, dollarsLed_append_of_not_mem _ _ _ hs0]
    exact holes_dollarsLed _ holes
      (fun x hx => ⟨⟨(hp x hx).1, by have := hp x hx; omega, (hp x hx).2⟩, hseg x hx⟩)
  have htake : A.take 9 = A := List.take_of_length_le hn
  have hsub := (substitute_eq_fillWith _ A hA hled).1
  rw [htake] at hsub
  simp only [resolve, hcount, ne_eq, not_true_eq_false, if_false]
  rw [hsub, template, simultaneous, fillWith_append_of_not_mem _ _ _ hs0]
  congr 2
  apply holes_fillWith
  intro x hx
  obtain ⟨h1, h2⟩ := hp x hx
  refine ⟨⟨by omega, ?_⟩, hseg x hx⟩
  rw [extend_digitChar A 0 _ x.1 (by omega) (by omega)]
  have hc : 0 < x.1 ∧ x.1 ≤ 0 + A.length := by omega
  have hk : x.1 - 0 - 1 < A.length := by omega
  rw [if_pos hc, List.getElem?_eq_getElem hk]
  simp only [Nat.sub_zero] at hk ⊢
  rw [List.getD_eq_getElem _ _ hk]

theorem resolve_template_simultaneous_witness :
    resolve "ex".toList "https://example.com/$1/$2".toList ["a".toList, "b".toList] =
        Except.ok "https://example.com/a/b".toList ∧
      resolve "k".toList "<$20-$1>".toList ["a".toList, "b".toList] =
        Except.ok "<b0-a>".toList :=
  ⟨resolve_template_simultaneous "ex".toList "https://example.com/".toList
      [(1, "/".toList), (2, [])] ["a".toList, "b".toList] (by decide) (List.Perm.refl _)
      (by decide) (by decide) (by decide),
    resolve_template_simultaneous "k".toList "<".toList
      [(2, "0-".toList), (1, ">".toList)] ["a".toList, "b".toList] (by decide)
      (List.Perm.swap 1 2 []) (by decide) (by decide) (by decide)⟩

/-- C4, as the spec states it, fails: with the template `$1` and the argument
`$1` the arity check passes, the only `$` begins the placeholder `$1`, and the
resolved string is `$1`, which still holds the placeholder token `$1`. -/
theorem resolve_keeps_placeholder_of_argument :
    count "$1".toList '$' = ["$1".toList].length ∧ wellFormed 1 "$1".toList = true ∧
      resolve "k".toList "$1".toList ["$1".toList] = Except.ok "$1".toList ∧
      occurs (sprintfPlaceholder 1) "$1".toList = true := by
  refine ⟨by decide, by decide, rfl, by decide⟩

/-- C4 amended: when the number of `$` in `T` equals the number of arguments,
every `$` in `T` begins a well-formed placeholder `$k` with `1 ≤ k ≤ length(A)`,
and no argument holds a `$`, resolution succeeds and the resolved string holds
no `$`, hence no placeholder token at all. -/
theorem resolve_leaves_no_dollar (key T : Str) (A : List Str)
    (hcount : count T '$' = A.length) (hT : wellFormed A.length T = true)
    (hA : ∀ a ∈ A, '$' ∉ a) :
    ∃ r, resolve key T A = Except.ok r ∧ '$' ∉ r ∧
      ∀ k, occurs (sprintfPlaceholder k) r = false := by
  have h := (substitute_eq_fillWith T A hA (wellFormed_dollarsLed _ _ hT)).2
  refine ⟨substitute 0 A T, ?_, h, fun k => occurs_dollar _ _ h⟩
  simp [resolve, hcount]

theorem resolve_leaves_no_dollar_witness :
    ∃ r, resolve "k".toList "$2 to $1".toList ["a".toList, "b".toList] = Except.ok r ∧
      '$' ∉ r ∧ ∀ k, occurs (sprintfPlaceholder k) r = false :=
  resolve_leaves_no_dollar "k".toList "$2 to $1".toList ["a".toList, "b".toList]
    (by decide) (by decide) (by decide)

/-- C5: for an argument list `A` of length at least 10 free of `$` and a
template `T` with as many `$` as arguments, each immediately followed by a digit
`1`-`9`, pass 1 rewrites every token `$10` into `A[0]` followed by `0`, and the
result is determined by the first nine arguments: it is the same for every `A'`
of the same length, free of `$`, that agrees with `A` on its first nine
elements. -/
theorem resolve_determined_by_first_nine (key T : Str) (A A' : List Str)
    (h10 : 10 ≤ A.length) (hA : ∀ a ∈ A, '$' ∉ a) (hcount : count T '$' = A.length)
    (hT : dollarsLed isDigit19 T = true) (hlen : A'.length = A.length)
    (hA' : ∀ a ∈ A', '$' ∉ a) (hagree : A'.take 9 = A.take 9) :
    (∃ r, resolve key T A = Except.ok r ∧ resolve key T A' = Except.ok r) ∧
    (∀ u v : Str, replaceAll (u ++ "$10".toList ++ v) (sprintfPlaceholder 1) (A.getD 0 []) =
      replaceAll u (sprintfPlaceholder 1) (A.getD 0 []) ++ A.getD 0 [] ++
        '0' :: replaceAll v (sprintfPlaceholder 1) (A.getD 0 [])) := by
  constructor
  · have hled : dollarsLed (digitUpTo A.length) T = true :=
      dollarsLed_mono _ _ (isDigit19_digitUpTo A.length (by omega)) T hT
    have h1 := (substitute_eq_fillWith T A hA hled).1
    have h2 := (substitute_eq_fillWith T A' hA' (hlen ▸ hled)).1
    refine ⟨substitute 0 A T, ?_, ?_⟩
    · simp [resolve, hcount]
    · simp [resolve, hcount, hlen, h1, h2, hagree]
  · intro u v
    have e : sprintfPlaceholder 1 = ['$', '1'] := rfl
    simp only [e, replaceAll, String.toList, List.append_assoc, List.cons_append,
      List.nil_append]
    rw [replaceFrom_two_append '$' '1' (by decide) _ _ u.length u (le_refl _)]
    simp [replaceFrom, hasPrefix]

theorem resolve_determined_by_first_nine_witness :
    (∃ r, resolve "k".toList "$1$2$3$4$5$6$7$8$9$10".toList
          (["a", "b", "c", "d", "e", "f", "g", "h", "i", "j"].map String.toList) = Except.ok r ∧
        resolve "k".toList "$1$2$3$4$5$6$7$8$9$10".toList
          (["a", "b", "c", "d", "e", "f", "g", "h", "i", "z"].map String.toList) = Except.ok r) ∧
      resolve "k".toList "$1$2$3$4$5$6$7$8$9$10".toList
          (["a", "b", "c", "d", "e", "f", "g", "h", "i", "j"].map String.toList) =
        Except.ok "abcdefghia0".toList :=
  ⟨(resolve_determined_by_first_nine "k".toList "$1$2$3$4$5$6$7$8$9$10".toList
      (["a", "b", "c", "d", "e", "f", "g", "h", "i", "j"].map String.toList)
      (["a", "b", "c", "d", "e", "f", "g", "h", "i", "z"].map String.toList)
      (by decide) (by decide) (by decide) (by decide) (by decide) (by decide) (by decide)).1,
    rfl⟩

/-- C6, as the spec states it, fails: on the token `=v` the create command makes
no formatting error; it calls `Create("", "v")` and reports success. -/
theorem create_empty_key_succeeds :
    rootCmd envOk [] ["=v".toList] =
        ⟨Outcome.ok (Success.created [] "v".toList), [⟨1, [], "v".toList⟩],
          [StoreOp.Create [] "v".toList]⟩ ∧
      (rootCmd envOk [] ["=v".toList]).outcome ≠ Outcome.error CmdError.invalidFormat := by
  decide

/-- C6 amended: for every assignment token with an empty key part, once the
database is open neither command fails with the formatting error; the token
parses to the empty key, the create command calls `Create("", value)` and
succeeds when no record has the empty key, and the update command calls
`Read("")` first. -/
theorem empty_key_reaches_store (env : Env) (t : Table) (rest : Str)
    (hdb : env.dbNewErr = none) :
    parseAssignment ('=' :: rest) = some ([], trimSpace (trim rest quote)) ∧
    (rootCmd env t ['=' :: rest]).ops = [StoreOp.Create [] (trimSpace (trim rest quote))] ∧
    (rootCmd env t ['=' :: rest]).outcome ≠ Outcome.error CmdError.invalidFormat ∧
    (hasKey t [] = false → (rootCmd env t ['=' :: rest]).outcome =
      Outcome.ok (Success.created [] (trimSpace (trim rest quote)))) ∧
    (update env t ('=' :: rest)).ops.head? = some (StoreOp.Read []) ∧
    (update env t ('=' :: rest)).outcome ≠ Outcome.error CmdError.invalidFormat := by
  have hp : parseAssignment ('=' :: rest) = some ([], trimSpace (trim rest quote)) := by
    simp [parseAssignment, splitN2, cut]
  have ha : parseArgs ['=' :: rest] = Parsed.assign [] (trimSpace (trim rest quote)) := by
    simp [parseArgs, contains, hp]
  refine ⟨hp, ?_, ?_, ?_, ?_, ?_⟩
  · simp only [rootCmd, ha, hdb, Store.Create]
    split <;> rfl
  · simp only [rootCmd, ha, hdb, Store.Create]
    split <;> simp
  · intro hk
    simp [rootCmd, ha, hdb, Store.Create, hk]
  · simp only [update, hp, hdb, Store.Update]
    split <;> rfl
  · simp only [update, hp, hdb, Store.Update]
    split <;> simp

theorem empty_key_reaches_store_witness :
    (rootCmd envOk [] ["='v'".toList]).ops = [StoreOp.Create [] "v".toList] ∧
      (update envOk [] "='v'".toList).ops.head? = some (StoreOp.Read []) :=
  ⟨(empty_key_reaches_store envOk [] "'v'".toList rfl).2.1,
    (empty_key_reaches_store envOk [] "'v'".toList rfl).2.2.2.2.1⟩

/-- C7: a token that contains `=` is split at the first `=` only: the key is the
text before it, holds no `=`, and `key ++ "=" ++ rest` is the token; the value is
the rest with surrounding single quotes stripped, then surrounding white space.
A token without `=` is the lookup key, unchanged, and the tokens after it are
its arguments in order. -/
theorem parse_splits_at_first_equals :
    (∀ input : Str, contains input '=' = true →
      ∃ key rest, input = key ++ '=' :: rest ∧ '=' ∉ key ∧
        parseAssignment input = some (key, trimSpace (trim rest quote)) ∧
        ∀ more, parseArgs (input :: more) = Parsed.assign key (trimSpace (trim rest quote))) ∧
    (∀ (input : Str) (more : List Str), contains input '=' = false →
      parseArgs (input :: more) = Parsed.lookup input more) ∧
    parseArgs ["name='hello world'".toList] =
      Parsed.assign "name".toList "hello world".toList ∧
    parseArgs ["name=value".toList] = Parsed.assign "name".toList "value".toList ∧
    parseArgs ["lookup".toList] = Parsed.lookup "lookup".toList [] ∧
    parseArgs ["k=' x '".toList] = Parsed.assign "k".toList "x".toList ∧
    parseArgs ["k= 'x' ".toList] = Parsed.assign "k".toList "'x'".toList := by
  refine ⟨?_, ?_, by decide, by decide, by decide, by decide, by decide⟩
  · intro input h
    obtain ⟨key, rest, h1, h2, h3⟩ := cut_of_contains '=' input h
    have hp : parseAssignment input = some (key, trimSpace (trim rest quote)) := by
      simp [parseAssignment, splitN2, h1]
    refine ⟨key, rest, h2, h3, hp, fun more => ?_⟩
    simp [parseArgs, h, hp]
  · intro input more h
    simp [parseArgs, h]

theorem parse_splits_at_first_equals_witness :
    (∃ key rest, "a=b=c".toList = key ++ '=' :: rest ∧ '=' ∉ key ∧
        parseAssignment "a=b=c".toList = some (key, trimSpace (trim rest quote)) ∧
        ∀ more, parseArgs ("a=b=c".toList :: more) =
          Parsed.assign key (trimSpace (trim rest quote))) ∧
      parseArgs ["gh".toList, "x".toList, "y".toList] =
        Parsed.lookup "gh".toList ["x".toList, "y".toList] :=
  ⟨parse_splits_at_first_equals.1 "a=b=c".toList (by decide),
    parse_splits_at_first_equals.2.1 "gh".toList ["x".toList, "y".toList] (by decide)⟩

/-- C8, as the spec states it, fails: on the empty store `Delete` of a key
returns no error, and the delete command reports success. -/
theorem delete_absent_key_no_error :
    hasKey [] "gone".toList = false ∧ (Store.Delete [] "gone".toList).1 = none ∧
      delete envOk [] "gone".toList =
        ⟨Outcome.ok (Success.deleted "gone".toList), [], [StoreOp.Delete "gone".toList]⟩ := by
  decide

/-- C8 amended: for every store state and every key that no stored record has,
`Delete` returns no error and leaves the store unchanged, and the delete command
reports success. -/
theorem delete_absent_key_unchanged (t : Table) (k : Str) (h : hasKey t k = false) :
    Store.Delete t k = (none, t) ∧
      ∀ env : Env, env.dbNewErr = none →
        delete env t k = ⟨Outcome.ok (Success.deleted k), t, [StoreOp.Delete k]⟩ := by
  have hd : Store.Delete t k = (none, t) := by
    simp only [Store.Delete, Prod.mk.injEq, true_and, List.filter_eq_self]
    intro a ha
    simp only [hasKey, List.any_eq_false, beq_iff_eq] at h
    simpa using h a ha
  refine ⟨hd, fun env hdb => ?_⟩
  simp [delete, hdb, hd]

theorem delete_absent_key_unchanged_witness :
    Store.Delete [⟨1, "a".toList, "b".toList⟩] "gone".toList =
      (none, [⟨1, "a".toList, "b".toList⟩]) :=
  (delete_absent_key_unchanged [⟨1, "a".toList, "b".toList⟩] "gone".toList (by decide)).1

/-- C9, as the spec states it, fails: an import of 16384 records has more
parameters than a statement may have, so it returns an error and inserts
nothing; and two records whose keys differ only after a NUL are bound to the
same key, so the second is skipped and the record read back has a key that is
no key of the list. -/
theorem import_too_many_or_cut :
    (Store.Import [] (List.replicate 16384 ⟨0, "k".toList, "v".toList⟩) =
      (some DbError.tooManyVariables, [])) ∧
    (Store.ReadAll envOk.scan
        (Store.Import [] [⟨0, ['a', nul, 'b'], "1".toList⟩, ⟨0, ['a', nul, 'c'], "2".toList⟩]).2 =
      Except.ok [⟨1, "a".toList, "1".toList⟩]) := by
  constructor
  · have h : (List.replicate 16384 (⟨0, "k".toList, "v".toList⟩ : Anchor)).length = 16384 :=
      List.length_replicate _ _
    unfold Store.Import
    rw [h]
    rfl
  · rfl

/-- C9 amended: for every store state `S` and every list `R` of fewer than 16384
records whose keys and values hold no NUL, when `Scan` returns the rows of `S`
and the records of `R` unchanged, `Import` returns no error and `ReadAll`
afterwards returns the records of `S`, unchanged, followed by exactly one
record for each key of `R` absent from `S`, with the value of the key's first
occurrence in `R`, in the order of first occurrence; importing the empty list
changes nothing. -/
theorem import_appends_first_occurrences (env : Env) (S : Table) (R : List Anchor)
    (hlen : R.length < 16384) (hnul : ∀ r ∈ R, nul ∉ r.Key ∧ nul ∉ r.Value)
    (hscan : ∀ a : Anchor, (a ∈ S ∨ ∃ r ∈ R, a.Key = r.Key ∧ a.Value = r.Value) →
      env.scan a = a) :
    (Store.Import S R).1 = none ∧
    (∃ new : List Anchor,
      (Store.Import S R).2 = S ++ new ∧
      Store.ReadAll env.scan (Store.Import S R).2 = Except.ok (S ++ new) ∧
      (new.map Anchor.Key).Nodup ∧
      (∀ k, k ∈ new.map Anchor.Key ↔ k ∈ R.map Anchor.Key ∧ k ∉ S.map Anchor.Key) ∧
      (∀ a ∈ new, (R.find? (fun r => r.Key == a.Key)).map Anchor.Value = some a.Value) ∧
      new.Pairwise (fun x y =>
        (R.map Anchor.Key).indexOf x.Key < (R.map Anchor.Key).indexOf y.Key)) ∧
    Store.Import S [] = (none, S) := by
  have hmax : ¬ maxVariableNumber < 2 * R.length := by
    simp only [maxVariableNumber]
    omega
  refine ⟨?_, ?_, rfl⟩
  · simp only [Store.Import, hmax, if_false]
    split <;> rfl
  · obtain ⟨new, h1, h2, h3, h4, h5⟩ := foldl_insertOrIgnore R hnul S
    have hS : ∀ k, hasKey S k = false ↔ k ∉ S.map Anchor.Key := by
      intro k
      rw [← hasKey_iff]
      simp
    have ht : (Store.Import S R).2 = S ++ new := by
      simp only [Store.Import, hmax, if_false]
      split
      · rename_i h0
        have hR : R = [] := List.length_eq_zero.1 h0
        subst hR
        simpa using h1
      · exact h1
    have hnew : ∀ a ∈ new, env.scan a = a := by
      intro a ha
      apply hscan a
      right
      have h := h4 a ha
      cases hf : R.find? (fun r => r.Key == a.Key) with
      | none => rw [hf] at h; cases h
      | some r =>
        rw [hf] at h
        simp only [Option.map_some', Option.some.injEq] at h
        have hkey := List.find?_some hf
        simp only [beq_iff_eq] at hkey
        exact ⟨r, List.mem_of_find?_eq_some hf, hkey.symm, h.symm⟩
    have hall : (S ++ new).map env.scan = S ++ new := by
      conv_rhs => rw [← List.map_id (S ++ new)]
      apply List.map_congr_left
      intro a ha
      rcases List.mem_append.1 ha with ha | ha
      · exact hscan a (Or.inl ha)
      · exact hnew a ha
    refine ⟨new, ht, ?_, h2, ?_, h4, h5⟩
    · rw [ht, Store.ReadAll, hall]
    · intro k
      rw [h3 k, hS k]

theorem import_appends_first_occurrences_witness :
    (Store.Import [] [⟨0, "hello".toList, "world".toList⟩,
        ⟨0, "ahoj".toList, "ciao".toList⟩]).1 = none ∧
      Store.ReadAll envOk.scan (Store.Import [] [⟨0, "hello".toList, "world".toList⟩,
        ⟨0, "ahoj".toList, "ciao".toList⟩]).2 =
        Except.ok [⟨1, "hello".toList, "world".toList⟩, ⟨2, "ahoj".toList, "ciao".toList⟩] ∧
      Store.ReadAll envOk.scan
          (Store.Import [] [⟨0, "k".toList, "v1".toList⟩, ⟨0, "k".toList, "v2".toList⟩]).2 =
        Except.ok [⟨1, "k".toList, "v1".toList⟩] :=
  ⟨(import_appends_first_occurrences envOk [] [⟨0, "hello".toList, "world".toList⟩,
      ⟨0, "ahoj".toList, "ciao".toList⟩] (by decide) (by decide) (fun _ _ => rfl)).1, rfl, rfl⟩

/-- C10 fails on the code at the empty record list, which an empty file
produces: the slice `records[1:]` is out of range, so the command panics instead
of returning the `no valid anchors` error. -/
theorem importc_empty_records_panics (env : Env) (t : Table) :
    sliceFrom ([] : List (List Str)) 1 = none ∧ extractAnchors [] = none ∧
      importc env t (Except.ok []) = ⟨Outcome.panic, t, []⟩ := by
  refine ⟨rfl, rfl, rfl⟩

/-- On a record list with a header row the extraction is defined: the anchors
are `(record[0], record[1])` of each later row with at least two fields, in
order, and with none the command returns `no valid anchors` without a store
call. -/
theorem importc_with_header (env : Env) (t : Table) (header : List Str)
    (rows : List (List Str)) :
    extractAnchors (header :: rows) = some (rows.filterMap recordAnchor) ∧
      (rows.filterMap recordAnchor = [] →
        importc env t (Except.ok (header :: rows)) =
          ⟨Outcome.error CmdError.noValidAnchors, t, []⟩) := by
  have he : extractAnchors (header :: rows) = some (rows.filterMap recordAnchor) := by
    simp [extractAnchors, sliceFrom]
  refine ⟨he, fun h => ?_⟩
  simp [importc, he, h]

end AnchorCli
